import Mathlib

/-!
Verification of the turbopack analyzer core (`src/crates/turbopack/src/analyzer/mod.rs`)
and the request parser (`src/crates/turbopack/src/resolve/parse.rs`).

The Rust data types and functions are shallowly embedded as Lean definitions;
`swc` string atoms (`JsWord`) are modelled as `String`, identifier keys `Id`
(symbol, syntax context) as `String × Nat`, and parsed URLs as their textual
form.  Structural equality of values ignores source spans, as the analyzer's
own equality is intended to (the literal type carries no span here).
-/

namespace Turbopack

/-- Literal payload of `JsValue::Constant` (swc's `Lit`).  Source spans are not
modelled; the numeric payload is abstracted to `Int` (no claim depends on
float semantics). -/
inductive Lit where
  | str (value : String)
  | bool (value : Bool)
  | null
  | num (value : Int)
  | bigint (value : Int)
  | regex (exp : String) (flags : String)
  | jsxText (value : String)
deriving DecidableEq, Repr

/-- `FreeVarKind` from the analyzer. -/
inductive FreeVarKind where
  | Dirname
  | Require
  | Import
  | RequireResolve
  | Other (name : String)
deriving DecidableEq, Repr

/-- `WellKnownObjectKind` from the analyzer. -/
inductive WellKnownObjectKind where
  | PathModule
  | FsModule
  | UrlModule
  | ChildProcess
deriving DecidableEq, Repr

/-- `WellKnownFunctionKind` from the analyzer. -/
inductive WellKnownFunctionKind where
  | PathJoin
  | Import
  | Require
  | RequireResolve
  | FsReadMethod (name : String)
  | PathToFileUrl
  | ChildProcessSpawn
deriving DecidableEq, Repr

/-- The symbolic value type `JsValue` from the analyzer. -/
inductive JsValue where
  | Constant (lit : Lit)
  | Array (elems : List JsValue)
  | Url (url : String)
  | Alternatives (list : List JsValue)
  | FreeVar (kind : FreeVarKind)
  | Variable (id : String × Nat)
  | Concat (list : List JsValue)
  | Add (list : List JsValue)
  | Call (callee : JsValue) (args : List JsValue)
  | Member (obj : JsValue) (prop : JsValue)
  | Module (name : String)
  | WellKnownObject (kind : WellKnownObjectKind)
  | WellKnownFunction (kind : WellKnownFunctionKind)
  | Unknown (inner : Option JsValue) (explainer : String)
  | Function (returnValue : JsValue)
  | Argument (index : Nat)

namespace JsValue

mutual

/-- `is_string` from the analyzer: a conservative "definitely a string"
predicate.  `anyString`/`allString` are the specializations of
`Iterator::any`/`all` used on the `Add`/`Alternatives` lists. -/
def is_string : JsValue → Bool
  | .Constant (.str _) => true
  | .Concat _ => true
  | .Constant _ => false
  | .Array _ => false
  | .Url _ => false
  | .Module _ => false
  | .Function _ => false
  | .FreeVar .Dirname => true
  | .FreeVar .Require => false
  | .FreeVar .Import => false
  | .FreeVar .RequireResolve => false
  | .FreeVar (.Other _) => false
  | .Add v => anyString v
  | .Alternatives v => allString v
  | .Variable _ => false
  | .Unknown _ _ => false
  | .Argument _ => false
  | .Call (.FreeVar .RequireResolve) _ => true
  | .Call _ _ => false
  | .Member _ _ => false
  | .WellKnownObject _ => false
  | .WellKnownFunction _ => false

def anyString : List JsValue → Bool
  | [] => false
  | x :: xs => is_string x || anyString xs

def allString : List JsValue → Bool
  | [] => true
  | x :: xs => is_string x && allString xs

end

mutual

/-- Structural equality on `JsValue` (Rust `PartialEq`, derived field-wise;
spans are not part of the model, so this is the semantic equality the spec
describes). -/
def beq : JsValue → JsValue → Bool
  | .Constant a, w => match w with | .Constant b => a == b | _ => false
  | .Array a, w => match w with | .Array b => beqList a b | _ => false
  | .Url a, w => match w with | .Url b => a == b | _ => false
  | .Alternatives a, w => match w with | .Alternatives b => beqList a b | _ => false
  | .FreeVar a, w => match w with | .FreeVar b => a == b | _ => false
  | .Variable a, w => match w with | .Variable b => a == b | _ => false
  | .Concat a, w => match w with | .Concat b => beqList a b | _ => false
  | .Add a, w => match w with | .Add b => beqList a b | _ => false
  | .Call c1 a1, w => match w with | .Call c2 a2 => beq c1 c2 && beqList a1 a2 | _ => false
  | .Member o1 p1, w => match w with | .Member o2 p2 => beq o1 o2 && beq p1 p2 | _ => false
  | .Module a, w => match w with | .Module b => a == b | _ => false
  | .WellKnownObject a, w => match w with | .WellKnownObject b => a == b | _ => false
  | .WellKnownFunction a, w => match w with | .WellKnownFunction b => a == b | _ => false
  | .Unknown (some i1) e1, w =>
    match w with | .Unknown (some i2) e2 => beq i1 i2 && e1 == e2 | _ => false
  | .Unknown none e1, w =>
    match w with | .Unknown none e2 => e1 == e2 | _ => false
  | .Function r1, w => match w with | .Function r2 => beq r1 r2 | _ => false
  | .Argument a, w => match w with | .Argument b => a == b | _ => false

/-- Field-wise equality of value lists (Rust `Vec<JsValue>: PartialEq`). -/
def beqList : List JsValue → List JsValue → Bool
  | [], [] => true
  | x :: xs, y :: ys => beq x y && beqList xs ys
  | _, _ => false

end

/-- `add_alt` from the analyzer: merge `v` into `s` under the alternatives
form.  `beq`/`List.any beq` model the Rust `==` and `Vec::contains`. -/
def add_alt (s : JsValue) (v : JsValue) : JsValue :=
  if beq s v then s
  else
    match s with
    | .Alternatives l =>
      if l.any (fun x => beq x v) then .Alternatives l else .Alternatives (l ++ [v])
    | _ => .Alternatives [s, v]

/-- The empty-string-constant test used by `normalize`'s `Concat` retain. -/
def isEmptyStrConst : JsValue → Bool
  | .Constant (.str s) => s == ""
  | _ => false

/-- The `Alternatives` flattening loop of `normalize` (`new.extend(v)` for a
nested `Alternatives`, plain push otherwise). -/
def flattenAlts : List JsValue → List JsValue
  | [] => []
  | .Alternatives v :: rest => v ++ flattenAlts rest
  | x :: rest => x :: flattenAlts rest

/-- The `Concat` rebuilding loop of `normalize`.  `acc` is the `new` vector in
reverse order (its head is `new.last_mut()`): a nested `Concat` is spliced in
unmerged, a string constant is fused into a trailing string constant, and
everything else is pushed. -/
def concatLoop (acc : List JsValue) : List JsValue → List JsValue
  | [] => acc.reverse
  | x :: rest =>
    match x with
    | .Concat v => concatLoop (v.reverse ++ acc) rest
    | .Constant (.str s) =>
      match acc with
      | .Constant (.str t) :: accTl => concatLoop (.Constant (.str (t ++ s)) :: accTl) rest
      | _ => concatLoop (.Constant (.str s) :: acc) rest
    | _ => concatLoop (x :: acc) rest

/-- The `Add` scanning loop of `normalize`: accumulate operands in `added`
until a string operand appears, then rewrite the node into a `Concat` whose
head groups the accumulated non-string terms (wrapped back into an `Add` when
there are at least two) and whose tail is the remaining operands verbatim.
If no operand is a string the node stays an `Add` of the accumulated list. -/
def addLoop (added : List JsValue) : List JsValue → JsValue
  | [] => .Add added
  | item :: rest =>
    if is_string item then
      .Concat
        ((match added with
          | [] => ([] : List JsValue)
          | [x] => [x]
          | _ => [JsValue.Add added]) ++ item :: rest)
    else addLoop (added ++ [item]) rest

mutual

/-- `normalize` from the analyzer.  The source first normalizes every direct
child in place (`for_each_children_mut` with a recursive visitor) and then
rewrites the node itself; the per-constructor arms here fuse those two steps.
The nine childless variants (the Rust `_ => {}` arm) are returned unchanged. -/
def normalize : JsValue → JsValue
  | .Constant l => .Constant l
  | .Array l => .Array (normalizeList l)
  | .Url u => .Url u
  | .Alternatives l => .Alternatives (flattenAlts (normalizeList l))
  | .FreeVar k => .FreeVar k
  | .Variable i => .Variable i
  | .Concat l =>
    match concatLoop [] ((normalizeList l).filter (fun x => !isEmptyStrConst x)) with
    | [x] => x
    | nw => .Concat nw
  | .Add l => addLoop [] (normalizeList l)
  | .Call c args => .Call (normalize c) (normalizeList args)
  | .Member o p => .Member (normalize o) (normalize p)
  | .Module n => .Module n
  | .WellKnownObject k => .WellKnownObject k
  | .WellKnownFunction k => .WellKnownFunction k
  | .Unknown i e => .Unknown i e
  | .Function r => .Function (normalize r)
  | .Argument n => .Argument n

/-- Child-wise normalization of a value list. -/
def normalizeList : List JsValue → List JsValue
  | [] => []
  | x :: xs => normalize x :: normalizeList xs

end

/-- Modelled from the spec: the source calls `lit_to_string` from
`crate::ecmascript::utils`, a module not included under `src/`; the spec only
says a Constant displays as its literal, so the literal's text stands in.  No
claim depends on its exact output. -/
def lit_to_string : Lit → String
  | .str s => s
  | .bool b => if b then "true" else "false"
  | .null => "null"
  | .num n => toString n
  | .bigint n => toString n
  | .regex e f => "/" ++ e ++ "/" ++ f
  | .jsxText s => s

/-- Modelled from the spec: stands in for the compiler-derived `Debug`
rendering of `FreeVarKind` (`{:?}`), which has no source text.  No claim
depends on its exact output. -/
def freeVarKindDebug : FreeVarKind → String
  | .Dirname => "Dirname"
  | .Require => "Require"
  | .Import => "Import"
  | .RequireResolve => "RequireResolve"
  | .Other w => "Other(\"" ++ w ++ "\")"

/-- Modelled from the spec: stands in for the compiler-derived `Debug`
rendering of `WellKnownObjectKind`.  No claim depends on its exact output. -/
def wkoDebug : WellKnownObjectKind → String
  | .PathModule => "PathModule"
  | .FsModule => "FsModule"
  | .UrlModule => "UrlModule"
  | .ChildProcess => "ChildProcess"

/-- Modelled from the spec: stands in for the compiler-derived `Debug`
rendering of `WellKnownFunctionKind`.  No claim depends on its exact output. -/
def wkfDebug : WellKnownFunctionKind → String
  | .PathJoin => "PathJoin"
  | .Import => "Import"
  | .Require => "Require"
  | .RequireResolve => "RequireResolve"
  | .FsReadMethod w => "FsReadMethod(\"" ++ w ++ "\")"
  | .PathToFileUrl => "PathToFileUrl"
  | .ChildProcessSpawn => "ChildProcessSpawn"

/-- Modelled from the spec: stands in for the compiler-derived `Debug`
rendering of `Lit`.  No claim depends on its exact output. -/
def litDebug : Lit → String
  | .str s => "Str(\"" ++ s ++ "\")"
  | .bool b => "Bool(" ++ (if b then "true" else "false") ++ ")"
  | .null => "Null"
  | .num n => "Num(" ++ toString n ++ ")"
  | .bigint n => "BigInt(" ++ toString n ++ ")"
  | .regex e f => "Regex(" ++ e ++ ", " ++ f ++ ")"
  | .jsxText s => "JSXText(\"" ++ s ++ "\")"

mutual

/-- Modelled from the spec: stands in for the compiler-derived `Debug`
rendering of `JsValue`, used only by the `Function` arm of
`explain_internal`.  No claim depends on its exact output. -/
def jsDebug : JsValue → String
  | .Constant l => "Constant(" ++ litDebug l ++ ")"
  | .Array l => "Array([" ++ String.intercalate ", " (jsDebugList l) ++ "])"
  | .Url u => "Url(" ++ u ++ ")"
  | .Alternatives l => "Alternatives([" ++ String.intercalate ", " (jsDebugList l) ++ "])"
  | .FreeVar k => "FreeVar(" ++ freeVarKindDebug k ++ ")"
  | .Variable i => "Variable((\"" ++ i.1 ++ "\", #" ++ toString i.2 ++ "))"
  | .Concat l => "Concat([" ++ String.intercalate ", " (jsDebugList l) ++ "])"
  | .Add l => "Add([" ++ String.intercalate ", " (jsDebugList l) ++ "])"
  | .Call c a => "Call(" ++ jsDebug c ++ ", [" ++ String.intercalate ", " (jsDebugList a) ++ "])"
  | .Member o p => "Member(" ++ jsDebug o ++ ", " ++ jsDebug p ++ ")"
  | .Module n => "Module(\"" ++ n ++ "\")"
  | .WellKnownObject k => "WellKnownObject(" ++ wkoDebug k ++ ")"
  | .WellKnownFunction k => "WellKnownFunction(" ++ wkfDebug k ++ ")"
  | .Unknown (some i) e => "Unknown(Some(" ++ jsDebug i ++ "), \"" ++ e ++ "\")"
  | .Unknown none e => "Unknown(None, \"" ++ e ++ "\")"
  | .Function r => "Function(" ++ jsDebug r ++ ")"
  | .Argument n => "Argument(" ++ toString n ++ ")"

/-- Debug rendering of a value list. -/
def jsDebugList : List JsValue → List String
  | [] => []
  | x :: xs => jsDebug x :: jsDebugList xs

end

/-- The name and explainer table of the `WellKnownObject` arm of
`explain_internal`. -/
def wkoNameExplainer : WellKnownObjectKind → String × String
  | .PathModule =>
    ("path", "The Node.js path module: https://nodejs.org/api/path.html")
  | .FsModule =>
    ("fs", "The Node.js fs module: https://nodejs.org/api/fs.html")
  | .UrlModule =>
    ("url", "The Node.js url module: https://nodejs.org/api/url.html")
  | .ChildProcess =>
    ("child_process",
      "The Node.js child_process module: https://nodejs.org/api/child_process.html")

/-- The name and explainer table of the `WellKnownFunction` arm of
`explain_internal`. -/
def wkfNameExplainer : WellKnownFunctionKind → String × String
  | .PathJoin =>
    ("path.join",
      "The Node.js path.join method: https://nodejs.org/api/path.html#pathjoinpaths")
  | .Import =>
    ("import",
      "The dynamic import() method from the ESM specification: https://developer.mozilla.org/en-US/docs/Web/JavaScript/Reference/Statements/import#dynamic_imports")
  | .Require => ("require", "The require method from CommonJS")
  | .RequireResolve => ("require.resolve", "The require.resolve method from CommonJS")
  | .FsReadMethod name =>
    ("fs." ++ name,
      "A file reading method from the Node.js fs module: https://nodejs.org/api/fs.html")
  | .PathToFileUrl =>
    ("url.pathToFileURL",
      "The Node.js url.pathToFileURL method: https://nodejs.org/api/url.html#urlpathtofileurlpath")
  | .ChildProcessSpawn =>
    ("child_process.spawn",
      "The Node.js child_process.spawn method: https://nodejs.org/api/child_process.html#child_processspawncommand-args-options")

mutual

/-- `explain_internal` from the analyzer, with the mutable `hints` vector
passed as explicit state.  The `WellKnownFunction` arm reproduces the
source's format string `"{name}s*{i}*"` verbatim, including its literal `s`
between the name and the hint marker. -/
def explain_internal : JsValue → List String → Nat → String × List String
  | .Constant lit, hints, _ => (lit_to_string lit, hints)
  | .Array elems, hints, depth =>
    let (parts, h) := explainL elems hints depth
    ("[" ++ String.intercalate ", " parts ++ "]", h)
  | .Url url, hints, _ => (url, hints)
  | .Alternatives list, hints, depth =>
    let (parts, h) := explainL list hints depth
    ("(" ++ String.intercalate " | " parts ++ ")", h)
  | .FreeVar name, hints, _ => ("FreeVar(" ++ freeVarKindDebug name ++ ")", hints)
  | .Variable name, hints, _ => (name.1, hints)
  | .Argument index, hints, _ => ("Argument(" ++ toString index ++ ")", hints)
  | .Concat list, hints, depth =>
    let (parts, h) := concatExplainL list hints depth
    ("`" ++ String.join parts ++ "`", h)
  | .Add list, hints, depth =>
    let (parts, h) := explainL list hints depth
    ("(" ++ String.intercalate " + " parts ++ ")", h)
  | .Call callee list, hints, depth =>
    let (cs, h1) := explain_internal callee hints depth
    let (parts, h2) := explainL list h1 depth
    (cs ++ "(" ++ String.intercalate ", " parts ++ ")", h2)
  | .Member obj prop, hints, depth =>
    let (os, h1) := explain_internal obj hints depth
    let (ps, h2) := explain_internal prop h1 depth
    (os ++ "[" ++ ps ++ "]", h2)
  | .Module name, hints, _ => ("module<" ++ name ++ ">", hints)
  | .Unknown inner explainer, hints, depth =>
    if depth == 0 || explainer == "" then ("???", hints)
    else
      match inner with
      | some innerV =>
        let i := hints.length
        let (innerS, h1) := explain_internal innerV (hints ++ [""]) (depth - 1)
        ("*" ++ toString i ++ "*",
          h1.set i
            ("- *" ++ toString i ++ "* " ++ innerS ++ "\n  ⚠️  " ++ explainer))
      | none =>
        let i := hints.length
        ("*" ++ toString i ++ "*",
          hints ++ ["- *" ++ toString i ++ "* " ++ explainer])
  | .WellKnownObject obj, hints, depth =>
    let (name, explainer) := wkoNameExplainer obj
    if depth > 0 then
      let i := hints.length
      (name ++ "*" ++ toString i ++ "*",
        hints ++ ["- *" ++ toString i ++ "* " ++ name ++ ": " ++ explainer])
    else (name, hints)
  | .WellKnownFunction func, hints, depth =>
    let (name, explainer) := wkfNameExplainer func
    if depth > 0 then
      let i := hints.length
      (name ++ "s*" ++ toString i ++ "*",
        hints ++ ["- *" ++ toString i ++ "* " ++ name ++ ": " ++ explainer])
    else (name, hints)
  | .Function returnValue, hints, _ =>
    ("A function which returns (" ++ jsDebug returnValue ++ ")", hints)

/-- Left-to-right explanation of a value list, threading the hints. -/
def explainL : List JsValue → List String → Nat → List String × List String
  | [], hints, _ => ([], hints)
  | x :: xs, hints, depth =>
    let (sx, h1) := explain_internal x hints depth
    let (sxs, h2) := explainL xs h1 depth
    (sx :: sxs, h2)

/-- The `Concat` part renderer: a string constant contributes its text
directly (no recursion), anything else is rendered inside a
`$`-brace interpolation marker. -/
def concatExplainL : List JsValue → List String → Nat → List String × List String
  | [], hints, _ => ([], hints)
  | x :: xs, hints, depth =>
    match x with
    | .Constant (.str s) =>
      let (sxs, h2) := concatExplainL xs hints depth
      (s :: sxs, h2)
    | other =>
      let (sx, h1) := explain_internal other hints depth
      let (sxs, h2) := concatExplainL xs h1 depth
      (("$\x7b" ++ sx ++ "\x7d") :: sxs, h2)

end

/-- `explain` from the analyzer: the body plus the newline-prefixed hints. -/
def explain (v : JsValue) (depth : Nat) : String × String :=
  let (explainer, hints) := explain_internal v [] depth
  (explainer, String.join (hints.map (fun h => "\n" ++ h)))

/-- Is the value a string constant (`Constant(Lit::Str(..))`)? -/
def isStrConst : JsValue → Bool
  | .Constant (.str _) => true
  | _ => false

/-- Is the value a `Concat`? -/
def isConcatV : JsValue → Bool
  | .Concat _ => true
  | _ => false

/-- Is the value an `Alternatives`? -/
def isAltV : JsValue → Bool
  | .Alternatives _ => true
  | _ => false

/-- No two adjacent elements of the list are both string constants. -/
def noAdjStr : List JsValue → Bool
  | a :: b :: rest => !(isStrConst a && isStrConst b) && noAdjStr (b :: rest)
  | _ => true

/-- Is the head of the list a string constant? -/
def headStr : List JsValue → Bool
  | a :: _ => isStrConst a
  | [] => false

mutual

/-- A value is `tame` when it contains no `Add` node and no `Concat` node
whose list directly contains another `Concat` (traversing the children the
analyzer's visitors traverse, so `Unknown` provenance payloads are opaque). -/
def tame : JsValue → Bool
  | .Constant _ => true
  | .Array l => tameList l
  | .Url _ => true
  | .Alternatives l => tameList l
  | .FreeVar _ => true
  | .Variable _ => true
  | .Concat l => l.all (fun x => !isConcatV x) && tameList l
  | .Add _ => false
  | .Call c a => tame c && tameList a
  | .Member o p => tame o && tame p
  | .Module _ => true
  | .WellKnownObject _ => true
  | .WellKnownFunction _ => true
  | .Unknown _ _ => true
  | .Function r => tame r
  | .Argument _ => true

def tameList : List JsValue → Bool
  | [] => true
  | x :: xs => tame x && tameList xs

end

mutual

/-- Normal form reached by `normalize` on tame values: no `Add` node; every
`Alternatives` list is flat; every `Concat` list has no singleton length, no
nested `Concat`, no empty-string constant and no adjacent string constants. -/
def nf : JsValue → Bool
  | .Constant _ => true
  | .Array l => nfList l
  | .Url _ => true
  | .Alternatives l => l.all (fun x => !isAltV x) && nfList l
  | .FreeVar _ => true
  | .Variable _ => true
  | .Concat l =>
    (l.length != 1) && l.all (fun x => !isConcatV x) &&
      l.all (fun x => !isEmptyStrConst x) && noAdjStr l && nfList l
  | .Add _ => false
  | .Call c a => nf c && nfList a
  | .Member o p => nf o && nf p
  | .Module _ => true
  | .WellKnownObject _ => true
  | .WellKnownFunction _ => true
  | .Unknown _ _ => true
  | .Function r => nf r
  | .Argument _ => true

def nfList : List JsValue → Bool
  | [] => true
  | x :: xs => nf x && nfList xs

end

mutual

/-- Every `Alternatives` list in the value (traversing visitor children) has
no element that is itself an `Alternatives`. -/
def altFlat : JsValue → Bool
  | .Constant _ => true
  | .Array l => altFlatList l
  | .Url _ => true
  | .Alternatives l => l.all (fun x => !isAltV x) && altFlatList l
  | .FreeVar _ => true
  | .Variable _ => true
  | .Concat l => altFlatList l
  | .Add l => altFlatList l
  | .Call c a => altFlat c && altFlatList a
  | .Member o p => altFlat o && altFlat p
  | .Module _ => true
  | .WellKnownObject _ => true
  | .WellKnownFunction _ => true
  | .Unknown _ _ => true
  | .Function r => altFlat r
  | .Argument _ => true

def altFlatList : List JsValue → Bool
  | [] => true
  | x :: xs => altFlat x && altFlatList xs

end

mutual

/-- The claimed `Concat` invariant: every `Concat` list in the value
(traversing visitor children) has no empty-string constant, no element that is
itself a `Concat`, and no two adjacent string constants. -/
def concatInv : JsValue → Bool
  | .Constant _ => true
  | .Array l => concatInvList l
  | .Url _ => true
  | .Alternatives l => concatInvList l
  | .FreeVar _ => true
  | .Variable _ => true
  | .Concat l =>
    l.all (fun x => !isEmptyStrConst x) && l.all (fun x => !isConcatV x) &&
      noAdjStr l && concatInvList l
  | .Add l => concatInvList l
  | .Call c a => concatInv c && concatInvList a
  | .Member o p => concatInv o && concatInv p
  | .Module _ => true
  | .WellKnownObject _ => true
  | .WellKnownFunction _ => true
  | .Unknown _ _ => true
  | .Function r => concatInv r
  | .Argument _ => true

def concatInvList : List JsValue → Bool
  | [] => true
  | x :: xs => concatInv x && concatInvList xs

end

mutual

/-- No `Concat` node in the value (traversing visitor children) has a list of
exactly one element. -/
def noSingleConcat : JsValue → Bool
  | .Constant _ => true
  | .Array l => noSingleConcatList l
  | .Url _ => true
  | .Alternatives l => noSingleConcatList l
  | .FreeVar _ => true
  | .Variable _ => true
  | .Concat l => (l.length != 1) && noSingleConcatList l
  | .Add l => noSingleConcatList l
  | .Call c a => noSingleConcat c && noSingleConcatList a
  | .Member o p => noSingleConcat o && noSingleConcat p
  | .Module _ => true
  | .WellKnownObject _ => true
  | .WellKnownFunction _ => true
  | .Unknown _ _ => true
  | .Function r => noSingleConcat r
  | .Argument _ => true

def noSingleConcatList : List JsValue → Bool
  | [] => true
  | x :: xs => noSingleConcat x && noSingleConcatList xs

end

/-- The `is_string` predicate as the specification sentence states it, for the
refinement comparison: true exactly for a string constant, a `Concat`, the
`DIRNAME` free variable, a call whose callee is the `REQUIRE_RESOLVE` free
variable, an `Add` some operand of which satisfies `is_string`, and an
`Alternatives` all operands of which satisfy `is_string`. -/
def isStringSpecified (v : JsValue) : Bool :=
  match v with
  | .Constant (.str _) => true
  | .Concat _ => true
  | .FreeVar .Dirname => true
  | .Call (.FreeVar .RequireResolve) _ => true
  | .Add l => l.any is_string
  | .Alternatives l => l.all is_string
  | _ => false

end JsValue

namespace Resolve

/-- `Request` from `resolve/parse.rs`.  Strings are modelled as `List Char`
(each Rust capture is a contiguous slice of the input's characters). -/
inductive Request where
  | Relative (path : List Char)
  | Module (module : List Char) (path : List Char)
  | ServerRelative (path : List Char)
  | Windows (path : List Char)
  | Empty
  | PackageInternal (path : List Char)
  | Uri (protocol : List Char) (remainer : List Char)
  | Unknown (path : List Char)
deriving DecidableEq, Repr

/-- `Request::request`: the textual form each variant stores or reassembles. -/
def request : Request → List Char
  | .Relative p => p
  | .Module m p => m ++ p
  | .ServerRelative p => p
  | .Windows p => p
  | .Empty => []
  | .PackageInternal p => p
  | .Uri pr r => pr ++ r
  | .Unknown p => p

/-- Does the variant use the `Unknown` fallback? -/
def isUnknownReq : Request → Bool
  | .Unknown _ => true
  | _ => false

/-- Byte-prefix test (`str::starts_with` for the ASCII prefixes used here). -/
def startsWith : List Char → List Char → Bool
  | [], _ => true
  | _ :: _, [] => false
  | p :: ps, c :: cs => p == c && startsWith ps cs

/-- A character the `[^/\\]` class of the `URI_PATH` pattern accepts. -/
def uriChar (c : Char) : Bool := !(c == '/' || c == '\\')

/-- `WINDOWS_PATH.is_match`: the anchored pattern `^([A-Za-z]:\\|\\\\)`
(`Char.isAlpha` is exactly `[A-Za-z]`). -/
def windowsMatch : List Char → Bool
  | a :: b :: rest =>
    (a.isAlpha && b == ':' &&
      (match rest with
       | '\\' :: _ => true
       | _ => false)) ||
    (a == '\\' && b == '\\')
  | _ => false

/-- Backtracking search for `URI_PATH`, the anchored pattern
`^([^/\\]+:)(/.+)`: the greedy `[^/\\]+` tries the longest candidate first
(`n + 1` is the candidate length of the part before the `:`), and `.`
matches any character except a newline, so the second capture is the `/`
followed by the maximal newline-free run after it (nonempty). -/
def uriGo (s : List Char) : Nat → Option (List Char × List Char)
  | 0 => none
  | n + 1 =>
    match s.drop (n + 1) with
    | ':' :: '/' :: c :: rest =>
      if (s.take (n + 1)).all uriChar && c != '\n' then
        some (s.take (n + 2), '/' :: (c :: rest).takeWhile (fun ch => ch != '\n'))
      else uriGo s n
    | _ => uriGo s n

/-- `URI_PATH.captures`: both captures of `^([^/\\]+:)(/.+)`, if the pattern
matches. -/
def uriCapture (s : List Char) : Option (List Char × List Char) := uriGo s s.length

/-- The `MODULE_PATH` pattern `^((?:@[^/]+/)?[^/]+)(.*)` with the optional
`@scope/` group not taken: the first capture is the maximal nonempty run
without `/`, and the trailing `.*` stops at a newline. -/
def modulePlain (s : List Char) : Option (List Char × List Char) :=
  let w := s.takeWhile (fun c => c != '/')
  if w.isEmpty then none
  else some (w, (s.drop w.length).takeWhile (fun c => c != '\n'))

/-- `MODULE_PATH.captures`: the greedy optional `@[^/]+/` group is matched
when the input starts with `@`, has a `/` after at least one non-`/`
character, and at least one non-`/` character follows that `/`; otherwise the
matcher backtracks to the plain form. -/
def moduleCapture (s : List Char) : Option (List Char × List Char) :=
  match s with
  | '@' :: t =>
    match t.dropWhile (fun c => c != '/') with
    | '/' :: rest2 =>
      let r := t.takeWhile (fun c => c != '/')
      if r.isEmpty then modulePlain s
      else
        let u := rest2.takeWhile (fun c => c != '/')
        if u.isEmpty then modulePlain s
        else some ('@' :: r ++ '/' :: u, (rest2.drop u.length).takeWhile (fun c => c != '\n'))
    | _ => modulePlain s
  | _ => modulePlain s

/-- `RequestRef::parse` from `resolve/parse.rs`. -/
def parse (s : List Char) : Request :=
  if s.isEmpty then .Empty
  else if startsWith ['/'] s then .ServerRelative s
  else if startsWith ['#'] s then .PackageInternal s
  else if startsWith ['.', '/'] s || startsWith ['.', '.', '/'] s then .Relative s
  else if windowsMatch s then .Windows s
  else
    match uriCapture s with
    | some (pr, rem) => .Uri pr rem
    | none =>
      match moduleCapture s with
      | some (m, p) => .Module m p
      | none => .Unknown s

end Resolve

/-! ### Structural induction for `JsValue`

`JsValue` nests `List` and `Option`, so its auto-generated recursor is
awkward; `jsInd` is the member-wise induction principle used throughout. -/

namespace JsValue

theorem jsInd (P : JsValue → Prop)
    (hConstant : ∀ l, P (.Constant l))
    (hArray : ∀ l, (∀ x ∈ l, P x) → P (.Array l))
    (hUrl : ∀ u, P (.Url u))
    (hAlternatives : ∀ l, (∀ x ∈ l, P x) → P (.Alternatives l))
    (hFreeVar : ∀ k, P (.FreeVar k))
    (hVariable : ∀ i, P (.Variable i))
    (hConcat : ∀ l, (∀ x ∈ l, P x) → P (.Concat l))
    (hAdd : ∀ l, (∀ x ∈ l, P x) → P (.Add l))
    (hCall : ∀ c a, P c → (∀ x ∈ a, P x) → P (.Call c a))
    (hMember : ∀ o p, P o → P p → P (.Member o p))
    (hModule : ∀ n, P (.Module n))
    (hWKO : ∀ k, P (.WellKnownObject k))
    (hWKF : ∀ k, P (.WellKnownFunction k))
    (hUnknown : ∀ i e, (∀ x, i = some x → P x) → P (.Unknown i e))
    (hFunction : ∀ r, P r → P (.Function r))
    (hArgument : ∀ n, P (.Argument n)) :
    ∀ v, P v := by
  suffices h : ∀ n (v : JsValue), sizeOf v ≤ n → P v by
    exact fun v => h (sizeOf v) v le_rfl
  intro n
  induction n with
  | zero =>
    intro v hv
    cases v <;> simp at hv
  | succ n ih =>
    intro v hv
    cases v with
    | Constant l => exact hConstant l
    | Array l =>
      refine hArray l fun x hx => ih x ?_
      have h1 := List.sizeOf_lt_of_mem hx
      simp at hv
      omega
    | Url u => exact hUrl u
    | Alternatives l =>
      refine hAlternatives l fun x hx => ih x ?_
      have h1 := List.sizeOf_lt_of_mem hx
      simp at hv
      omega
    | FreeVar k => exact hFreeVar k
    | Variable i => exact hVariable i
    | Concat l =>
      refine hConcat l fun x hx => ih x ?_
      have h1 := List.sizeOf_lt_of_mem hx
      simp at hv
      omega
    | Add l =>
      refine hAdd l fun x hx => ih x ?_
      have h1 := List.sizeOf_lt_of_mem hx
      simp at hv
      omega
    | Call c a =>
      simp at hv
      refine hCall c a (ih c (by omega)) fun x hx => ih x ?_
      have h1 := List.sizeOf_lt_of_mem hx
      omega
    | Member o p =>
      simp at hv
      exact hMember o p (ih o (by omega)) (ih p (by omega))
    | Module m => exact hModule m
    | WellKnownObject k => exact hWKO k
    | WellKnownFunction k => exact hWKF k
    | Unknown i e =>
      refine hUnknown i e fun x hx => ih x ?_
      subst hx
      simp at hv
      omega
    | Function r =>
      simp at hv
      exact hFunction r (ih r (by omega))
    | Argument m => exact hArgument m

/-- `beqList` decides list equality, given that `beq` decides equality of the
members. -/
theorem beqList_correct_of (l : List JsValue)
    (ih : ∀ x ∈ l, ∀ w, beq x w = true ↔ x = w) :
    ∀ m, beqList l m = true ↔ l = m := by
  induction l with
  | nil => intro m; cases m <;> simp [beqList]
  | cons a t iht =>
    intro m
    cases m with
    | nil => simp [beqList]
    | cons b u =>
      simp [beqList, Bool.and_eq_true, ih a (List.mem_cons_self a t),
        iht fun x hx w => ih x (List.mem_cons_of_mem a hx) w]

/-- `beq` is structural equality: it decides `=` on `JsValue`. -/
theorem beq_correct : ∀ v w, beq v w = true ↔ v = w := by
  intro v
  induction v using jsInd with
  | hConstant l => intro w; cases w <;> simp [beq]
  | hArray l ih => intro w; cases w <;> simp [beq, beqList_correct_of l ih]
  | hUrl u => intro w; cases w <;> simp [beq]
  | hAlternatives l ih => intro w; cases w <;> simp [beq, beqList_correct_of l ih]
  | hFreeVar k => intro w; cases w <;> simp [beq]
  | hVariable i => intro w; cases w <;> simp [beq]
  | hConcat l ih => intro w; cases w <;> simp [beq, beqList_correct_of l ih]
  | hAdd l ih => intro w; cases w <;> simp [beq, beqList_correct_of l ih]
  | hCall c a ihc iha =>
    intro w
    cases w <;> simp [beq, Bool.and_eq_true, ihc, beqList_correct_of a iha]
  | hMember o p iho ihp => intro w; cases w <;> simp [beq, Bool.and_eq_true, iho, ihp]
  | hModule n => intro w; cases w <;> simp [beq]
  | hWKO k => intro w; cases w <;> simp [beq]
  | hWKF k => intro w; cases w <;> simp [beq]
  | hUnknown i e ih =>
    intro w
    cases i with
    | none =>
      cases w with
      | Unknown j f => cases j <;> simp [beq]
      | _ => simp [beq]
    | some a =>
      cases w with
      | Unknown j f =>
        cases j with
        | none => simp [beq]
        | some b => simp [beq, Bool.and_eq_true, ih a rfl]
      | _ => simp [beq]
  | hFunction r ih => intro w; cases w <;> simp [beq, ih]
  | hArgument n => intro w; cases w <;> simp [beq]

theorem anyString_eq (l : List JsValue) : anyString l = l.any is_string := by
  induction l <;> simp [anyString, *]

theorem allString_eq (l : List JsValue) : allString l = l.all is_string := by
  induction l <;> simp [allString, *]

/-- C5: `is_string` returns true exactly for a string constant, a `Concat`,
the `DIRNAME` free variable, a call whose callee is the `REQUIRE_RESOLVE`
free variable, an `Add` with a stringy operand and an `Alternatives` all of
whose operands are stringy — and false for every other form, as captured by
the specification-side predicate `isStringSpecified`. -/
theorem claim5_is_string_exact : ∀ v, is_string v = isStringSpecified v := by
  intro v
  cases v with
  | Constant l => cases l <;> simp [is_string, isStringSpecified]
  | FreeVar k => cases k <;> simp [is_string, isStringSpecified]
  | Add l => simp [is_string, isStringSpecified, anyString_eq]
  | Alternatives l => simp [is_string, isStringSpecified, allString_eq]
  | Call c a =>
    cases c with
    | FreeVar k => cases k <;> simp [is_string, isStringSpecified]
    | Constant l => simp [is_string, isStringSpecified]
    | Array l => simp [is_string, isStringSpecified]
    | Url u => simp [is_string, isStringSpecified]
    | Alternatives l => simp [is_string, isStringSpecified]
    | Variable i => simp [is_string, isStringSpecified]
    | Concat l => simp [is_string, isStringSpecified]
    | Add l => simp [is_string, isStringSpecified]
    | Call c2 a2 => simp [is_string, isStringSpecified]
    | Member o p => simp [is_string, isStringSpecified]
    | Module n => simp [is_string, isStringSpecified]
    | WellKnownObject k => simp [is_string, isStringSpecified]
    | WellKnownFunction k => simp [is_string, isStringSpecified]
    | Unknown i e => simp [is_string, isStringSpecified]
    | Function r => simp [is_string, isStringSpecified]
    | Argument n => simp [is_string, isStringSpecified]
  | _ => simp [is_string, isStringSpecified]

theorem any_beq_iff (l : List JsValue) (w : JsValue) :
    (l.any fun x => beq x w) = true ↔ w ∈ l := by
  simp [List.any_eq_true, beq_correct]

/-- C6: `add_alt` leaves `self` unchanged when it equals `v`; on an
`Alternatives` it appends `v` exactly when `v` is absent (and keeps the list
otherwise); on any other value it wraps both into a two-element
`Alternatives`; and it preserves pairwise-distinctness of an `Alternatives`
list. -/
theorem claim6_add_alt :
    (∀ v, add_alt v v = v) ∧
    (∀ l w, JsValue.Alternatives l ≠ w → w ∈ l →
      add_alt (.Alternatives l) w = .Alternatives l) ∧
    (∀ l w, JsValue.Alternatives l ≠ w → w ∉ l →
      add_alt (.Alternatives l) w = .Alternatives (l ++ [w])) ∧
    (∀ v w, v ≠ w → isAltV v = false → add_alt v w = .Alternatives [v, w]) ∧
    (∀ l w l', l.Nodup → add_alt (.Alternatives l) w = .Alternatives l' →
      l'.Nodup) := by
  have hbeqT : ∀ v : JsValue, beq v v = true := fun v => (beq_correct v v).mpr rfl
  have hbeqF : ∀ v w : JsValue, v ≠ w → beq v w = false := fun v w hne => by
    rw [← Bool.not_eq_true, beq_correct]; exact hne
  refine ⟨?_, ?_, ?_, ?_, ?_⟩
  · intro v
    simp [add_alt, hbeqT]
  · intro l w hne hmem
    simp [add_alt, hbeqF _ _ hne, (any_beq_iff l w).mpr hmem]
  · intro l w hne hmem
    have : (l.any fun x => beq x w) = false := by
      rw [← Bool.not_eq_true, any_beq_iff]; exact hmem
    simp [add_alt, hbeqF _ _ hne, this]
  · intro v w hne halt
    cases v <;> simp_all [add_alt, hbeqF _ _ hne, isAltV]
  · intro l w l' hnd h
    rw [add_alt] at h
    split at h
    · injection h with h'
      subst h'
      exact hnd
    · split at h
      · injection h with h'
        subst h'
        exact hnd
      · injection h with h'
        subst h'
        rename_i hbeq hany
        have hmem : w ∉ l := by
          rw [← any_beq_iff l w]
          simpa using hany
        simp [List.nodup_append, hnd, hmem]

/-- C6 witness. -/
theorem claim6_add_alt_witness :
    add_alt (.Alternatives [.Constant (.str "a")]) (.Constant (.str "b")) =
      .Alternatives [.Constant (.str "a"), .Constant (.str "b")] :=
  claim6_add_alt.2.2.1 _ _ (by simp) (by simp)

/-- C8: evaluating `explain` at depth 1 on a well-known object and a
well-known function.  The object renders as its canonical name immediately
followed by the hint marker (`path*0*`), as the claim states; the function
arm's format string `"{name}s*{i}*"` inserts a stray literal `s` between the
name and the marker (`requires*0*`), contradicting the claim — the parallel
object arm shows the intent, so this is a slip in the code. -/
theorem claim8_explain_eval :
    explain (.WellKnownObject .PathModule) 1 =
      ("path*0*", "\n- *0* path: The Node.js path module: https://nodejs.org/api/path.html") ∧
    explain (.WellKnownFunction .Require) 1 =
      ("requires*0*", "\n- *0* require: The require method from CommonJS") := by
  constructor <;>
    · simp [explain, explain_internal, wkoNameExplainer, wkfNameExplainer, String.join]
      decide

/-! ### Normalization: list-level helper lemmas -/

theorem nfList_iff (l : List JsValue) : nfList l = true ↔ ∀ x ∈ l, nf x = true := by
  induction l <;> simp [nfList, *]

theorem tameList_iff (l : List JsValue) : tameList l = true ↔ ∀ x ∈ l, tame x = true := by
  induction l <;> simp [tameList, *]

theorem altFlatList_iff (l : List JsValue) :
    altFlatList l = true ↔ ∀ x ∈ l, altFlat x = true := by
  induction l <;> simp [altFlatList, *]

theorem concatInvList_iff (l : List JsValue) :
    concatInvList l = true ↔ ∀ x ∈ l, concatInv x = true := by
  induction l <;> simp [concatInvList, *]

theorem noSingleConcatList_iff (l : List JsValue) :
    noSingleConcatList l = true ↔ ∀ x ∈ l, noSingleConcat x = true := by
  induction l <;> simp [noSingleConcatList, *]

theorem normalizeList_eq_map (l : List JsValue) : normalizeList l = l.map normalize := by
  induction l <;> simp [normalizeList, *]

theorem noAdjStr_cons (x : JsValue) (l : List JsValue) :
    noAdjStr (x :: l) = (!(isStrConst x && headStr l) && noAdjStr l) := by
  cases l <;> simp [noAdjStr, headStr]

theorem noAdjStr_iff_chain (l : List JsValue) :
    noAdjStr l = true ↔
      l.Chain' (fun a b => ¬(isStrConst a = true ∧ isStrConst b = true)) := by
  induction l with
  | nil => simp [noAdjStr]
  | cons a t ih =>
    cases t with
    | nil => simp [noAdjStr]
    | cons b r =>
      rw [noAdjStr, List.chain'_cons, ← ih]
      cases ha : isStrConst a <;> cases hb : isStrConst b <;> simp [ha, hb]

theorem noAdjStr_reverse (l : List JsValue) : noAdjStr l.reverse = noAdjStr l := by
  rw [Bool.eq_iff_iff, noAdjStr_iff_chain, noAdjStr_iff_chain, List.chain'_reverse]
  constructor
  · exact fun h => h.imp fun _ _ hab hc => hab ⟨hc.2, hc.1⟩
  · exact fun h => h.imp fun _ _ hab hc => hab ⟨hc.2, hc.1⟩

/-! Shape equations for `concatLoop` and `flattenAlts` under propositional
knowledge about the head element. -/

theorem concatLoop_nil (acc : List JsValue) : concatLoop acc [] = acc.reverse := rfl

theorem concatLoop_cons_concat (acc v rest) :
    concatLoop acc (.Concat v :: rest) = concatLoop (v.reverse ++ acc) rest := rfl

theorem concatLoop_cons_str_merge (acc s t rest) :
    concatLoop (.Constant (.str t) :: acc) (.Constant (.str s) :: rest) =
      concatLoop (.Constant (.str (t ++ s)) :: acc) rest := rfl

theorem concatLoop_cons_str_push (s : String) (rest : List JsValue) :
    ∀ acc, headStr acc = false →
      concatLoop acc (.Constant (.str s) :: rest) =
        concatLoop (.Constant (.str s) :: acc) rest := by
  intro acc h
  cases acc with
  | nil => rfl
  | cons a t =>
    cases a with
    | Constant lit =>
      cases lit with
      | str u => simp [headStr, isStrConst] at h
      | bool b => rfl
      | null => rfl
      | num n => rfl
      | bigint n => rfl
      | regex e f => rfl
      | jsxText u => rfl
    | Array l => rfl
    | Url u => rfl
    | Alternatives l => rfl
    | FreeVar k => rfl
    | Variable i => rfl
    | Concat l => rfl
    | Add l => rfl
    | Call c a => rfl
    | Member o p => rfl
    | Module n => rfl
    | WellKnownObject k => rfl
    | WellKnownFunction k => rfl
    | Unknown i e => rfl
    | Function r => rfl
    | Argument n => rfl

theorem concatLoop_cons_other (x : JsValue) (rest : List JsValue)
    (hC : isConcatV x = false) (hS : isStrConst x = false) :
    ∀ acc, concatLoop acc (x :: rest) = concatLoop (x :: acc) rest := by
  intro acc
  cases x with
  | Constant lit =>
    cases lit with
    | str u => simp [isStrConst] at hS
    | bool b => rfl
    | null => rfl
    | num n => rfl
    | bigint n => rfl
    | regex e f => rfl
    | jsxText u => rfl
  | Array l => rfl
  | Url u => rfl
  | Alternatives l => rfl
  | FreeVar k => rfl
  | Variable i => rfl
  | Concat l => simp [isConcatV] at hC
  | Add l => rfl
  | Call c a => rfl
  | Member o p => rfl
  | Module n => rfl
  | WellKnownObject k => rfl
  | WellKnownFunction k => rfl
  | Unknown i e => rfl
  | Function r => rfl
  | Argument n => rfl

theorem flattenAlts_cons_alt (v rest) :
    flattenAlts (.Alternatives v :: rest) = v ++ flattenAlts rest := rfl

theorem flattenAlts_cons_other (x : JsValue) (rest : List JsValue)
    (hA : isAltV x = false) : flattenAlts (x :: rest) = x :: flattenAlts rest := by
  cases x with
  | Alternatives l => simp [isAltV] at hA
  | Constant lit => rfl
  | Array l => rfl
  | Url u => rfl
  | FreeVar k => rfl
  | Variable i => rfl
  | Concat l => rfl
  | Add l => rfl
  | Call c a => rfl
  | Member o p => rfl
  | Module n => rfl
  | WellKnownObject k => rfl
  | WellKnownFunction k => rfl
  | Unknown i e => rfl
  | Function r => rfl
  | Argument n => rfl

theorem flattenAlts_id (l : List JsValue) (h : ∀ x ∈ l, isAltV x = false) :
    flattenAlts l = l := by
  induction l with
  | nil => rfl
  | cons x rest ih =>
    rw [flattenAlts_cons_other x rest (h x (List.mem_cons_self x rest))]
    rw [ih fun y hy => h y (List.mem_cons_of_mem x hy)]

theorem mem_flattenAlts : ∀ {m : List JsValue} {y : JsValue}, y ∈ flattenAlts m →
    (y ∈ m ∧ isAltV y = false) ∨ ∃ v, JsValue.Alternatives v ∈ m ∧ y ∈ v := by
  intro m
  induction m with
  | nil => intro y hy; simp [flattenAlts] at hy
  | cons x rest ih =>
    intro y hy
    by_cases hA : isAltV x = true
    · obtain ⟨v, rfl⟩ : ∃ v, x = JsValue.Alternatives v := by
        cases x <;> simp [isAltV] at hA ⊢
      rw [flattenAlts_cons_alt] at hy
      rcases List.mem_append.mp hy with hv | hr
      · exact Or.inr ⟨v, List.mem_cons_self _ _, hv⟩
      · rcases ih hr with ⟨h1, h2⟩ | ⟨w, hw1, hw2⟩
        · exact Or.inl ⟨List.mem_cons_of_mem _ h1, h2⟩
        · exact Or.inr ⟨w, List.mem_cons_of_mem _ hw1, hw2⟩
    · rw [flattenAlts_cons_other x rest (by simpa using hA)] at hy
      rcases List.mem_cons.mp hy with rfl | hr
      · exact Or.inl ⟨List.mem_cons_self _ _, by simpa using hA⟩
      · rcases ih hr with ⟨h1, h2⟩ | ⟨w, hw1, hw2⟩
        · exact Or.inl ⟨List.mem_cons_of_mem _ h1, h2⟩
        · exact Or.inr ⟨w, List.mem_cons_of_mem _ hw1, hw2⟩

theorem normalizeList_id (l : List JsValue) (h : ∀ x ∈ l, normalize x = x) :
    normalizeList l = l := by
  rw [normalizeList_eq_map]
  exact List.map_congr_left h |>.trans (List.map_id l)

theorem isStrConst_iff (x : JsValue) : isStrConst x = true ↔ ∃ s, x = .Constant (.str s) := by
  cases x
  case Constant lit => cases lit <;> simp [isStrConst]
  all_goals simp [isStrConst]

/-- The `Concat` rebuilding loop does nothing on a list with no nested
`Concat`, no adjacent string constants, and no string constant right at the
boundary with the accumulator. -/
theorem concatLoop_fixed : ∀ (m acc : List JsValue),
    (∀ x ∈ m, isConcatV x = false) → noAdjStr m = true →
    (headStr acc = false ∨ headStr m = false) →
    concatLoop acc m = acc.reverse ++ m := by
  intro m
  induction m with
  | nil => intro acc _ _ _; simp [concatLoop_nil]
  | cons x rest ih =>
    intro acc hC hAdj hB
    have hCrest : ∀ y ∈ rest, isConcatV y = false :=
      fun y hy => hC y (List.mem_cons_of_mem x hy)
    rw [noAdjStr_cons, Bool.and_eq_true] at hAdj
    obtain ⟨h1, hAdjRest⟩ := hAdj
    rw [Bool.not_eq_true'] at h1
    by_cases hSx : isStrConst x = true
    · obtain ⟨s, rfl⟩ := (isStrConst_iff x).mp hSx
      have hBacc : headStr acc = false := by
        rcases hB with h | h
        · exact h
        · simp [headStr, isStrConst] at h
      rw [concatLoop_cons_str_push s rest acc hBacc]
      have hRestHead : headStr rest = false := by
        rw [isStrConst] at hSx
        rcases Bool.and_eq_false_iff.mp h1 with h | h
        · rw [isStrConst] at h; simp at h
        · exact h
      rw [ih (.Constant (.str s) :: acc) hCrest hAdjRest (Or.inr hRestHead)]
      simp
    · have hSx' : isStrConst x = false := by simpa using hSx
      rw [concatLoop_cons_other x rest (hC x (List.mem_cons_self x rest)) hSx' acc]
      rw [ih (x :: acc) hCrest hAdjRest (Or.inl (by simp [headStr, hSx']))]
      simp

/-- `normalize` is the identity on values in normal form. -/
theorem fix_of_nf : ∀ v, nf v = true → normalize v = v := by
  intro v
  induction v using jsInd with
  | hConstant l => intro _; simp [normalize]
  | hArray l ih =>
    intro h
    simp only [nf] at h
    rw [nfList_iff] at h
    simp only [normalize]
    rw [normalizeList_id l fun x hx => ih x hx (h x hx)]
  | hUrl u => intro _; simp [normalize]
  | hAlternatives l ih =>
    intro h
    simp only [nf, Bool.and_eq_true] at h
    obtain ⟨hA, hl⟩ := h
    rw [List.all_eq_true] at hA
    rw [nfList_iff] at hl
    simp only [normalize]
    rw [normalizeList_id l fun x hx => ih x hx (hl x hx)]
    rw [flattenAlts_id l fun x hx => by simpa using hA x hx]
  | hFreeVar k => intro _; simp [normalize]
  | hVariable i => intro _; simp [normalize]
  | hConcat l ih =>
    intro h
    simp only [nf, Bool.and_eq_true] at h
    obtain ⟨⟨⟨⟨hlen, hC⟩, hE⟩, hAdj⟩, hl⟩ := h
    rw [List.all_eq_true] at hC hE
    rw [nfList_iff] at hl
    simp only [normalize]
    rw [normalizeList_id l fun x hx => ih x hx (hl x hx)]
    rw [List.filter_eq_self.mpr hE]
    rw [concatLoop_fixed l [] (fun x hx => by simpa using hC x hx) hAdj (Or.inl rfl)]
    simp only [List.reverse_nil, List.nil_append]
    clear hC hE hAdj hl ih
    cases l with
    | nil => rfl
    | cons a t =>
      cases t with
      | nil => simp at hlen
      | cons b u => rfl
  | hAdd l ih => intro h; simp [nf] at h
  | hCall c a ihc iha =>
    intro h
    simp only [nf, Bool.and_eq_true] at h
    obtain ⟨h1, h2⟩ := h
    rw [nfList_iff] at h2
    simp only [normalize]
    rw [ihc h1, normalizeList_id a fun x hx => iha x hx (h2 x hx)]
  | hMember o p iho ihp =>
    intro h
    simp only [nf, Bool.and_eq_true] at h
    simp only [normalize]
    rw [iho h.1, ihp h.2]
  | hModule n => intro _; simp [normalize]
  | hWKO k => intro _; simp [normalize]
  | hWKF k => intro _; simp [normalize]
  | hUnknown i e _ => intro _; simp [normalize]
  | hFunction r ihr =>
    intro h
    simp only [nf] at h
    simp only [normalize]
    rw [ihr h]
  | hArgument n => intro _; simp [normalize]

theorem str_append_ne_empty (t s : String) (h : t ≠ "") : t ++ s ≠ "" := by
  intro he
  have h1 : (t ++ s).data = [] := by rw [he]
  rw [String.data_append] at h1
  rcases List.append_eq_nil.mp h1 with ⟨h2, _⟩
  apply h
  ext1
  rw [h2]

/-- `normalize` never turns a tame non-`Concat` value into a `Concat` (only
the `Concat` collapse and the `Add` rewrite change a node's variant, and tame
values contain no `Add`). -/
theorem normalize_not_concat (x : JsValue) (ht : tame x = true) (hc : isConcatV x = false) :
    isConcatV (normalize x) = false := by
  cases x with
  | Concat l => simp [isConcatV] at hc
  | Add l => simp [tame] at ht
  | Constant l => simp [normalize, isConcatV]
  | Array l => simp [normalize, isConcatV]
  | Url u => simp [normalize, isConcatV]
  | Alternatives l => simp [normalize, isConcatV]
  | FreeVar k => simp [normalize, isConcatV]
  | Variable i => simp [normalize, isConcatV]
  | Call c a => simp [normalize, isConcatV]
  | Member o p => simp [normalize, isConcatV]
  | Module n => simp [normalize, isConcatV]
  | WellKnownObject k => simp [normalize, isConcatV]
  | WellKnownFunction k => simp [normalize, isConcatV]
  | Unknown i e => simp [normalize, isConcatV]
  | Function r => simp [normalize, isConcatV]
  | Argument n => simp [normalize, isConcatV]

theorem flattenAlts_nf (m : List JsValue) (h : ∀ x ∈ m, nf x = true) :
    ∀ y ∈ flattenAlts m, nf y = true ∧ isAltV y = false := by
  intro y hy
  rcases mem_flattenAlts hy with ⟨h1, h2⟩ | ⟨v, hv1, hv2⟩
  · exact ⟨h y h1, h2⟩
  · have hv := h _ hv1
    simp only [nf, Bool.and_eq_true] at hv
    obtain ⟨hA, hl⟩ := hv
    rw [List.all_eq_true] at hA
    rw [nfList_iff] at hl
    exact ⟨hl y hv2, by simpa using hA y hv2⟩

/-- The `Concat` rebuilding loop preserves the element facts (no `Concat`, in
normal form, not an empty string constant) and produces no adjacent string
constants, provided the input list has no `Concat` element. -/
theorem concatLoop_good : ∀ (m acc : List JsValue),
    (∀ x ∈ m, isConcatV x = false ∧ nf x = true ∧ isEmptyStrConst x = false) →
    (∀ x ∈ acc, isConcatV x = false ∧ nf x = true ∧ isEmptyStrConst x = false) →
    noAdjStr acc = true →
    (∀ y ∈ concatLoop acc m,
      isConcatV y = false ∧ nf y = true ∧ isEmptyStrConst y = false) ∧
      noAdjStr (concatLoop acc m) = true := by
  intro m
  induction m with
  | nil =>
    intro acc _ hacc hadj
    rw [concatLoop_nil]
    refine ⟨fun y hy => hacc y (List.mem_reverse.mp hy), ?_⟩
    rw [noAdjStr_reverse]
    exact hadj
  | cons x rest ih =>
    intro acc hm hacc hadj
    obtain ⟨hCx, hNx, hEx⟩ := hm x (List.mem_cons_self x rest)
    have hmrest : ∀ z ∈ rest,
        isConcatV z = false ∧ nf z = true ∧ isEmptyStrConst z = false :=
      fun z hz => hm z (List.mem_cons_of_mem x hz)
    by_cases hSx : isStrConst x = true
    · obtain ⟨s, rfl⟩ := (isStrConst_iff x).mp hSx
      cases acc with
      | nil =>
        rw [concatLoop_cons_str_push s rest [] rfl]
        refine ih [.Constant (.str s)] hmrest ?_ rfl
        intro z hz
        rw [List.mem_singleton] at hz
        subst hz
        exact ⟨hCx, hNx, hEx⟩
      | cons a accTl =>
        obtain ⟨hCa, hNa, hEa⟩ := hacc a (List.mem_cons_self a accTl)
        have hAccTl : ∀ z ∈ accTl,
            isConcatV z = false ∧ nf z = true ∧ isEmptyStrConst z = false :=
          fun z hz => hacc z (List.mem_cons_of_mem a hz)
        rw [noAdjStr_cons, Bool.and_eq_true] at hadj
        obtain ⟨hadj1, hadjTl⟩ := hadj
        rw [Bool.not_eq_true'] at hadj1
        by_cases hSa : isStrConst a = true
        · obtain ⟨t, rfl⟩ := (isStrConst_iff a).mp hSa
          rw [concatLoop_cons_str_merge]
          have hHd : headStr accTl = false := by
            rcases Bool.and_eq_false_iff.mp hadj1 with h | h
            · simp [isStrConst] at h
            · exact h
          refine ih (.Constant (.str (t ++ s)) :: accTl) hmrest ?_ ?_
          · intro z hz
            rcases List.mem_cons.mp hz with rfl | hz'
            · refine ⟨rfl, by simp [nf], ?_⟩
              have ht : t ≠ "" := by simpa [isEmptyStrConst] using hEa
              simpa [isEmptyStrConst] using str_append_ne_empty t s ht
            · exact hAccTl z hz'
          · rw [noAdjStr_cons]
            simp [hHd, hadjTl, isStrConst]
        · have hSa' : isStrConst a = false := by simpa using hSa
          rw [concatLoop_cons_str_push s rest (a :: accTl) (by simp [headStr, hSa'])]
          refine ih (.Constant (.str s) :: a :: accTl) hmrest ?_ ?_
          · intro z hz
            rcases List.mem_cons.mp hz with rfl | hz'
            · exact ⟨rfl, by simp [nf], hEx⟩
            · exact hacc z hz'
          · have hCs : isStrConst (.Constant (.str s)) = true := rfl
            rw [noAdjStr_cons, noAdjStr_cons]
            simp [headStr, hSa', hCs, hadj1, hadjTl]
    · have hSx' : isStrConst x = false := by simpa using hSx
      rw [concatLoop_cons_other x rest hCx hSx' acc]
      refine ih (x :: acc) hmrest ?_ ?_
      · intro z hz
        rcases List.mem_cons.mp hz with rfl | hz'
        · exact ⟨hCx, hNx, hEx⟩
        · exact hacc z hz'
      · rw [noAdjStr_cons]
        simp [hSx', hadj]

/-- On a tame value `normalize` reaches the normal form `nf`. -/
theorem nf_normalize_of_tame : ∀ v, tame v = true → nf (normalize v) = true := by
  intro v
  induction v using jsInd with
  | hConstant l => intro _; simp [normalize, nf]
  | hArray l ih =>
    intro h
    simp only [tame] at h
    rw [tameList_iff] at h
    simp only [normalize, nf]
    rw [nfList_iff, normalizeList_eq_map]
    intro x hx
    obtain ⟨u, hu, rfl⟩ := List.mem_map.mp hx
    exact ih u hu (h u hu)
  | hUrl u => intro _; simp [normalize, nf]
  | hAlternatives l ih =>
    intro h
    simp only [tame] at h
    rw [tameList_iff] at h
    have hnfm : ∀ x ∈ normalizeList l, nf x = true := by
      rw [normalizeList_eq_map]
      intro x hx
      obtain ⟨u, hu, rfl⟩ := List.mem_map.mp hx
      exact ih u hu (h u hu)
    simp only [normalize, nf, Bool.and_eq_true]
    constructor
    · rw [List.all_eq_true]
      intro y hy
      simpa using (flattenAlts_nf _ hnfm y hy).2
    · rw [nfList_iff]
      exact fun y hy => (flattenAlts_nf _ hnfm y hy).1
  | hFreeVar k => intro _; simp [normalize, nf]
  | hVariable i => intro _; simp [normalize, nf]
  | hConcat l ih =>
    intro h
    simp only [tame, Bool.and_eq_true] at h
    obtain ⟨hC, htl⟩ := h
    rw [List.all_eq_true] at hC
    rw [tameList_iff] at htl
    have hm' : ∀ x ∈ (normalizeList l).filter (fun x => !isEmptyStrConst x),
        isConcatV x = false ∧ nf x = true ∧ isEmptyStrConst x = false := by
      intro x hx
      rw [List.mem_filter] at hx
      obtain ⟨hx1, hx2⟩ := hx
      rw [normalizeList_eq_map, List.mem_map] at hx1
      obtain ⟨u, hu, rfl⟩ := hx1
      exact ⟨normalize_not_concat u (htl u hu) (by simpa using hC u hu),
        ih u hu (htl u hu), by simpa using hx2⟩
    obtain ⟨hmem, hadj⟩ :=
      concatLoop_good _ [] hm' (fun x hx => absurd hx (List.not_mem_nil x)) rfl
    simp only [normalize]
    cases hcase : concatLoop [] ((normalizeList l).filter fun x => !isEmptyStrConst x) with
    | nil => simp [nf, nfList, noAdjStr]
    | cons a t =>
      rw [hcase] at hmem hadj
      cases t with
      | nil => exact (hmem a (List.mem_singleton_self a)).2.1
      | cons b u =>
        simp only [nf, Bool.and_eq_true]
        refine ⟨⟨⟨⟨by simp, ?_⟩, ?_⟩, hadj⟩, ?_⟩
        · rw [List.all_eq_true]
          intro y hy
          simpa using (hmem y hy).1
        · rw [List.all_eq_true]
          intro y hy
          simpa using (hmem y hy).2.2
        · rw [nfList_iff]
          exact fun y hy => (hmem y hy).2.1
  | hAdd l ih => intro h; simp [tame] at h
  | hCall c a ihc iha =>
    intro h
    simp only [tame, Bool.and_eq_true] at h
    obtain ⟨h1, h2⟩ := h
    rw [tameList_iff] at h2
    simp only [normalize, nf, Bool.and_eq_true]
    refine ⟨ihc h1, ?_⟩
    rw [nfList_iff, normalizeList_eq_map]
    intro x hx
    obtain ⟨u, hu, rfl⟩ := List.mem_map.mp hx
    exact iha u hu (h2 u hu)
  | hMember o p iho ihp =>
    intro h
    simp only [tame, Bool.and_eq_true] at h
    simp only [normalize, nf, Bool.and_eq_true]
    exact ⟨iho h.1, ihp h.2⟩
  | hModule n => intro _; simp [normalize, nf]
  | hWKO k => intro _; simp [normalize, nf]
  | hWKF k => intro _; simp [normalize, nf]
  | hUnknown i e _ => intro _; simp [normalize, nf]
  | hFunction r ihr =>
    intro h
    simp only [tame] at h
    simp only [normalize, nf]
    exact ihr h
  | hArgument n => intro _; simp [normalize, nf]

theorem nf_imp_concatInv : ∀ v, nf v = true → concatInv v = true := by
  intro v
  induction v using jsInd with
  | hConstant l => intro _; simp [concatInv]
  | hArray l ih =>
    intro h
    simp only [nf] at h
    rw [nfList_iff] at h
    simp only [concatInv]
    rw [concatInvList_iff]
    exact fun x hx => ih x hx (h x hx)
  | hUrl u => intro _; simp [concatInv]
  | hAlternatives l ih =>
    intro h
    simp only [nf, Bool.and_eq_true] at h
    obtain ⟨_, hl⟩ := h
    rw [nfList_iff] at hl
    simp only [concatInv]
    rw [concatInvList_iff]
    exact fun x hx => ih x hx (hl x hx)
  | hFreeVar k => intro _; simp [concatInv]
  | hVariable i => intro _; simp [concatInv]
  | hConcat l ih =>
    intro h
    simp only [nf, Bool.and_eq_true] at h
    obtain ⟨⟨⟨⟨_, hC⟩, hE⟩, hAdj⟩, hl⟩ := h
    rw [nfList_iff] at hl
    simp only [concatInv, Bool.and_eq_true]
    refine ⟨⟨⟨hE, hC⟩, hAdj⟩, ?_⟩
    rw [concatInvList_iff]
    exact fun x hx => ih x hx (hl x hx)
  | hAdd l ih => intro h; simp [nf] at h
  | hCall c a ihc iha =>
    intro h
    simp only [nf, Bool.and_eq_true] at h
    obtain ⟨h1, h2⟩ := h
    rw [nfList_iff] at h2
    simp only [concatInv, Bool.and_eq_true]
    refine ⟨ihc h1, ?_⟩
    rw [concatInvList_iff]
    exact fun x hx => iha x hx (h2 x hx)
  | hMember o p iho ihp =>
    intro h
    simp only [nf, Bool.and_eq_true] at h
    simp only [concatInv, Bool.and_eq_true]
    exact ⟨iho h.1, ihp h.2⟩
  | hModule n => intro _; simp [concatInv]
  | hWKO k => intro _; simp [concatInv]
  | hWKF k => intro _; simp [concatInv]
  | hUnknown i e _ => intro _; simp [concatInv]
  | hFunction r ihr =>
    intro h
    simp only [nf] at h
    simp only [concatInv]
    exact ihr h
  | hArgument n => intro _; simp [concatInv]

theorem nf_imp_noSingleConcat : ∀ v, nf v = true → noSingleConcat v = true := by
  intro v
  induction v using jsInd with
  | hConstant l => intro _; simp [noSingleConcat]
  | hArray l ih =>
    intro h
    simp only [nf] at h
    rw [nfList_iff] at h
    simp only [noSingleConcat]
    rw [noSingleConcatList_iff]
    exact fun x hx => ih x hx (h x hx)
  | hUrl u => intro _; simp [noSingleConcat]
  | hAlternatives l ih =>
    intro h
    simp only [nf, Bool.and_eq_true] at h
    obtain ⟨_, hl⟩ := h
    rw [nfList_iff] at hl
    simp only [noSingleConcat]
    rw [noSingleConcatList_iff]
    exact fun x hx => ih x hx (hl x hx)
  | hFreeVar k => intro _; simp [noSingleConcat]
  | hVariable i => intro _; simp [noSingleConcat]
  | hConcat l ih =>
    intro h
    simp only [nf, Bool.and_eq_true] at h
    obtain ⟨⟨⟨⟨hlen, _⟩, _⟩, _⟩, hl⟩ := h
    rw [nfList_iff] at hl
    simp only [noSingleConcat, Bool.and_eq_true]
    refine ⟨hlen, ?_⟩
    rw [noSingleConcatList_iff]
    exact fun x hx => ih x hx (hl x hx)
  | hAdd l ih => intro h; simp [nf] at h
  | hCall c a ihc iha =>
    intro h
    simp only [nf, Bool.and_eq_true] at h
    obtain ⟨h1, h2⟩ := h
    rw [nfList_iff] at h2
    simp only [noSingleConcat, Bool.and_eq_true]
    refine ⟨ihc h1, ?_⟩
    rw [noSingleConcatList_iff]
    exact fun x hx => iha x hx (h2 x hx)
  | hMember o p iho ihp =>
    intro h
    simp only [nf, Bool.and_eq_true] at h
    simp only [noSingleConcat, Bool.and_eq_true]
    exact ⟨iho h.1, ihp h.2⟩
  | hModule n => intro _; simp [noSingleConcat]
  | hWKO k => intro _; simp [noSingleConcat]
  | hWKF k => intro _; simp [noSingleConcat]
  | hUnknown i e _ => intro _; simp [noSingleConcat]
  | hFunction r ihr =>
    intro h
    simp only [nf] at h
    simp only [noSingleConcat]
    exact ihr h
  | hArgument n => intro _; simp [noSingleConcat]

/-- C1 (counterexample): `normalize` is not idempotent.  On
`Add [Constant "a", Constant "b"]` the `Add` rewrite produces
`Concat [Constant "a", Constant "b"]` without renormalizing it, and a second
`normalize` fuses the adjacent string constants into `Constant "ab"`. -/
theorem claim1_counterexample :
    beq (normalize (normalize (.Add [.Constant (.str "a"), .Constant (.str "b")])))
      (normalize (.Add [.Constant (.str "a"), .Constant (.str "b")])) = false := by
  have h1 : normalize (.Add [.Constant (.str "a"), .Constant (.str "b")]) =
      .Concat [.Constant (.str "a"), .Constant (.str "b")] := by
    simp [normalize, normalizeList, addLoop, is_string]
  have h2 : normalize (.Concat [.Constant (.str "a"), .Constant (.str "b")]) =
      .Constant (.str "ab") := by
    simp [normalize, normalizeList, concatLoop, isEmptyStrConst]
  rw [h1, h2]
  simp [beq]

/-- C1 (amended): `normalize` is idempotent on every value that contains no
`Add` node and no `Concat` node whose list directly contains another
`Concat` (the `tame` values). -/
theorem claim1_normalize_idempotent (v : JsValue) (h : tame v = true) :
    normalize (normalize v) = normalize v :=
  fix_of_nf _ (nf_normalize_of_tame v h)

/-- C1 witness. -/
theorem claim1_normalize_idempotent_witness :
    tame (.Concat [.Constant (.str "a"), .Unknown none ""]) = true ∧
      normalize (normalize (.Concat [.Constant (.str "a"), .Unknown none ""])) =
        normalize (.Concat [.Constant (.str "a"), .Unknown none ""]) :=
  ⟨by simp [tame, tameList, isConcatV],
    claim1_normalize_idempotent _ (by simp [tame, tameList, isConcatV])⟩

/-- C2 (counterexample): normalizing `Concat [Constant "a",
Concat [Constant "b", Unknown]]` splices the nested `Concat` without fusing
across the boundary, leaving two adjacent string constants in the output
`Concat` list. -/
theorem claim2_counterexample :
    normalize (.Concat [.Constant (.str "a"),
        .Concat [.Constant (.str "b"), .Unknown none ""]]) =
      .Concat [.Constant (.str "a"), .Constant (.str "b"), .Unknown none ""] ∧
    concatInv (.Concat [.Constant (.str "a"), .Constant (.str "b"),
        .Unknown none ""]) = false := by
  constructor
  · simp [normalize, normalizeList, concatLoop, isEmptyStrConst]
  · simp [concatInv, concatInvList, noAdjStr, isStrConst]

/-- C2 (amended): for every value with no `Add` node and no `Concat` directly
inside a `Concat`, every `Concat` list in the output of `normalize` has no
empty-string constant, no `Concat` element, and no two adjacent string
constants. -/
theorem claim2_concat_invariant (v : JsValue) (h : tame v = true) :
    concatInv (normalize v) = true :=
  nf_imp_concatInv _ (nf_normalize_of_tame v h)

/-- C2 witness. -/
theorem claim2_concat_invariant_witness :
    tame (.Concat [.Constant (.str "x"), .Constant (.str "")]) = true ∧
      concatInv (normalize (.Concat [.Constant (.str "x"), .Constant (.str "")])) = true :=
  ⟨by simp [tame, tameList, isConcatV],
    claim2_concat_invariant _ (by simp [tame, tameList, isConcatV])⟩

/-- C4 (counterexample): normalized lists can be empty (`Array []` is
untouched) and an `Add` singleton is not collapsed into its element. -/
theorem claim4_counterexample :
    normalize (.Array []) = .Array [] ∧
    normalize (.Add [.Unknown none ""]) = .Add [.Unknown none ""] := by
  constructor
  · simp [normalize, normalizeList]
  · simp [normalize, normalizeList, addLoop, is_string]

/-- C4 (amended): only the `Concat` collapse exists: on values with no `Add`
and no `Concat` directly inside a `Concat`, no `Concat` node of the output
has exactly one element; `Alternatives` and `Add` singletons are returned
unchanged, and empty lists are not removed. -/
theorem claim4_collapse :
    (∀ v, tame v = true → noSingleConcat (normalize v) = true) ∧
    normalize (.Alternatives [.Unknown none "u"]) = .Alternatives [.Unknown none "u"] ∧
    normalize (.Add [.Unknown none "u"]) = .Add [.Unknown none "u"] := by
  refine ⟨fun v h => nf_imp_noSingleConcat _ (nf_normalize_of_tame v h), ?_, ?_⟩
  · simp [normalize, normalizeList, flattenAlts]
  · simp [normalize, normalizeList, addLoop, is_string]

/-- C4 witness. -/
theorem claim4_collapse_witness :
    tame (.Concat ([] : List JsValue)) = true ∧
      noSingleConcat (normalize (.Concat ([] : List JsValue))) = true :=
  ⟨by simp [tame, tameList], claim4_collapse.1 _ (by simp [tame, tameList])⟩

/-- Every element of the `Concat` rebuilding loop's output comes from the
accumulator, from the input list, from a nested `Concat`'s list, or is a
string constant produced by fusing. -/
theorem mem_concatLoop : ∀ (m acc : List JsValue) (y : JsValue), y ∈ concatLoop acc m →
    y ∈ acc ∨ y ∈ m ∨ (∃ v, JsValue.Concat v ∈ m ∧ y ∈ v) ∨
      ∃ s, y = JsValue.Constant (.str s) := by
  intro m
  induction m with
  | nil =>
    intro acc y hy
    rw [concatLoop_nil] at hy
    exact Or.inl (List.mem_reverse.mp hy)
  | cons x rest ih =>
    intro acc y hy
    by_cases hCx : isConcatV x = true
    · obtain ⟨v, rfl⟩ : ∃ v, x = .Concat v := by
        cases x <;> simp [isConcatV] at hCx ⊢
      rw [concatLoop_cons_concat] at hy
      rcases ih (v.reverse ++ acc) y hy with h | h | ⟨w, hw1, hw2⟩ | h
      · rcases List.mem_append.mp h with h' | h'
        · exact Or.inr (Or.inr (Or.inl ⟨v, List.mem_cons_self _ _, List.mem_reverse.mp h'⟩))
        · exact Or.inl h'
      · exact Or.inr (Or.inl (List.mem_cons_of_mem _ h))
      · exact Or.inr (Or.inr (Or.inl ⟨w, List.mem_cons_of_mem _ hw1, hw2⟩))
      · exact Or.inr (Or.inr (Or.inr h))
    · by_cases hSx : isStrConst x = true
      · obtain ⟨s, rfl⟩ := (isStrConst_iff x).mp hSx
        cases acc with
        | nil =>
          rw [concatLoop_cons_str_push s rest [] rfl] at hy
          rcases ih _ y hy with h | h | ⟨w, hw1, hw2⟩ | h
          · rcases List.mem_cons.mp h with rfl | h'
            · exact Or.inr (Or.inr (Or.inr ⟨s, rfl⟩))
            · simp at h'
          · exact Or.inr (Or.inl (List.mem_cons_of_mem _ h))
          · exact Or.inr (Or.inr (Or.inl ⟨w, List.mem_cons_of_mem _ hw1, hw2⟩))
          · exact Or.inr (Or.inr (Or.inr h))
        | cons a accTl =>
          by_cases hSa : isStrConst a = true
          · obtain ⟨t, rfl⟩ := (isStrConst_iff a).mp hSa
            rw [concatLoop_cons_str_merge] at hy
            rcases ih _ y hy with h | h | ⟨w, hw1, hw2⟩ | h
            · rcases List.mem_cons.mp h with rfl | h'
              · exact Or.inr (Or.inr (Or.inr ⟨t ++ s, rfl⟩))
              · exact Or.inl (List.mem_cons_of_mem _ h')
            · exact Or.inr (Or.inl (List.mem_cons_of_mem _ h))
            · exact Or.inr (Or.inr (Or.inl ⟨w, List.mem_cons_of_mem _ hw1, hw2⟩))
            · exact Or.inr (Or.inr (Or.inr h))
          · have hSa' : isStrConst a = false := by simpa using hSa
            rw [concatLoop_cons_str_push s rest (a :: accTl)
              (by simp [headStr, hSa'])] at hy
            rcases ih _ y hy with h | h | ⟨w, hw1, hw2⟩ | h
            · rcases List.mem_cons.mp h with rfl | h'
              · exact Or.inr (Or.inr (Or.inr ⟨s, rfl⟩))
              · exact Or.inl h'
            · exact Or.inr (Or.inl (List.mem_cons_of_mem _ h))
            · exact Or.inr (Or.inr (Or.inl ⟨w, List.mem_cons_of_mem _ hw1, hw2⟩))
            · exact Or.inr (Or.inr (Or.inr h))
      · have hSx' : isStrConst x = false := by simpa using hSx
        have hCx' : isConcatV x = false := by simpa using hCx
        rw [concatLoop_cons_other x rest hCx' hSx' acc] at hy
        rcases ih _ y hy with h | h | ⟨w, hw1, hw2⟩ | h
        · rcases List.mem_cons.mp h with rfl | h'
          · exact Or.inr (Or.inl (List.mem_cons_self _ _))
          · exact Or.inl h'
        · exact Or.inr (Or.inl (List.mem_cons_of_mem _ h))
        · exact Or.inr (Or.inr (Or.inl ⟨w, List.mem_cons_of_mem _ hw1, hw2⟩))
        · exact Or.inr (Or.inr (Or.inr h))

/-- The `Add` scanning loop preserves Alternatives-flatness. -/
theorem addLoop_altFlat : ∀ (m added : List JsValue),
    (∀ x ∈ added, altFlat x = true) → (∀ x ∈ m, altFlat x = true) →
    altFlat (addLoop added m) = true := by
  intro m
  induction m with
  | nil =>
    intro added ha _
    simp only [addLoop, altFlat]
    rw [altFlatList_iff]
    exact ha
  | cons item rest ih =>
    intro added ha hm
    simp only [addLoop]
    split
    · simp only [altFlat]
      rw [altFlatList_iff]
      intro y hy
      rcases List.mem_append.mp hy with h | h
      · rcases added with _ | ⟨a, t⟩
        · simp at h
        · rcases t with _ | ⟨b, u⟩
          · rw [List.mem_singleton] at h
            subst h
            exact ha _ (List.mem_singleton_self _)
          · rw [List.mem_singleton] at h
            subst h
            simp only [altFlat]
            rw [altFlatList_iff]
            exact ha
      · rcases List.mem_cons.mp h with rfl | h'
        · exact hm _ (List.mem_cons_self _ _)
        · exact hm _ (List.mem_cons_of_mem _ h')
    · refine ih (added ++ [item]) ?_ fun x hx => hm x (List.mem_cons_of_mem _ hx)
      intro x hx
      rcases List.mem_append.mp hx with h | h
      · exact ha x h
      · rw [List.mem_singleton] at h
        subst h
        exact hm _ (List.mem_cons_self _ _)

/-- C3 (counterexample): `normalize` does not deduplicate an `Alternatives`
list: two structurally equal elements survive. -/
theorem claim3_counterexample :
    normalize (.Alternatives [.Constant (.str "a"), .Constant (.str "a")]) =
      .Alternatives [.Constant (.str "a"), .Constant (.str "a")] ∧
    beq (.Constant (.str "a")) (.Constant (.str "a")) = true := by
  constructor
  · simp [normalize, normalizeList, flattenAlts]
  · simp [beq]

/-- C3 (amended): after `normalize`, no element of an `Alternatives` list
(traversing visitor children) is itself an `Alternatives`; duplicate
elements are not removed. -/
theorem claim3_alternatives_flat : ∀ v, altFlat (normalize v) = true := by
  intro v
  induction v using jsInd with
  | hConstant l => simp [normalize, altFlat]
  | hArray l ih =>
    simp only [normalize, altFlat]
    rw [altFlatList_iff, normalizeList_eq_map]
    intro x hx
    obtain ⟨u, hu, rfl⟩ := List.mem_map.mp hx
    exact ih u hu
  | hUrl u => simp [normalize, altFlat]
  | hAlternatives l ih =>
    have hm : ∀ x ∈ normalizeList l, altFlat x = true := by
      rw [normalizeList_eq_map]
      intro x hx
      obtain ⟨u, hu, rfl⟩ := List.mem_map.mp hx
      exact ih u hu
    simp only [normalize, altFlat, Bool.and_eq_true]
    constructor
    · rw [List.all_eq_true]
      intro y hy
      rcases mem_flattenAlts hy with ⟨_, h2⟩ | ⟨v', hv1, hv2⟩
      · simpa using h2
      · have hv := hm _ hv1
        simp only [altFlat, Bool.and_eq_true] at hv
        obtain ⟨hA, _⟩ := hv
        rw [List.all_eq_true] at hA
        simpa using hA y hv2
    · rw [altFlatList_iff]
      intro y hy
      rcases mem_flattenAlts hy with ⟨h1, _⟩ | ⟨v', hv1, hv2⟩
      · exact hm y h1
      · have hv := hm _ hv1
        simp only [altFlat, Bool.and_eq_true] at hv
        obtain ⟨_, hL⟩ := hv
        rw [altFlatList_iff] at hL
        exact hL y hv2
  | hFreeVar k => simp [normalize, altFlat]
  | hVariable i => simp [normalize, altFlat]
  | hConcat l ih =>
    have hm : ∀ x ∈ (normalizeList l).filter (fun x => !isEmptyStrConst x),
        altFlat x = true := by
      intro x hx
      rw [List.mem_filter, normalizeList_eq_map] at hx
      obtain ⟨hx1, _⟩ := hx
      obtain ⟨u, hu, rfl⟩ := List.mem_map.mp hx1
      exact ih u hu
    simp only [normalize]
    cases hcase : concatLoop [] ((normalizeList l).filter fun x => !isEmptyStrConst x) with
    | nil => simp [altFlat, altFlatList]
    | cons a t =>
      have hmem : ∀ y ∈ a :: t, altFlat y = true := by
        rw [← hcase]
        intro y hy
        rcases mem_concatLoop _ [] y hy with h | h | ⟨w, hw1, hw2⟩ | ⟨s, rfl⟩
        · simp at h
        · exact hm y h
        · have hw := hm _ hw1
          simp only [altFlat] at hw
          rw [altFlatList_iff] at hw
          exact hw y hw2
        · simp [altFlat]
      cases t with
      | nil => exact hmem a (List.mem_singleton_self a)
      | cons b u =>
        simp only [altFlat]
        rw [altFlatList_iff]
        exact hmem
  | hAdd l ih =>
    simp only [normalize]
    refine addLoop_altFlat (normalizeList l) [] (by simp) ?_
    rw [normalizeList_eq_map]
    intro x hx
    obtain ⟨u, hu, rfl⟩ := List.mem_map.mp hx
    exact ih u hu
  | hCall c a ihc iha =>
    simp only [normalize, altFlat, Bool.and_eq_true]
    refine ⟨ihc, ?_⟩
    rw [altFlatList_iff, normalizeList_eq_map]
    intro x hx
    obtain ⟨u, hu, rfl⟩ := List.mem_map.mp hx
    exact iha u hu
  | hMember o p iho ihp =>
    simp only [normalize, altFlat, Bool.and_eq_true]
    exact ⟨iho, ihp⟩
  | hModule n => simp [normalize, altFlat]
  | hWKO k => simp [normalize, altFlat]
  | hWKF k => simp [normalize, altFlat]
  | hUnknown i e _ => simp [normalize, altFlat]
  | hFunction r ihr =>
    simp only [normalize, altFlat]
    exact ihr
  | hArgument n => simp [normalize, altFlat]

end JsValue

/-! ### Request parser theorems -/

namespace Resolve

theorem drop_length_takeWhile (p : Char → Bool) (l : List Char) :
    l.drop (l.takeWhile p).length = l.dropWhile p := by
  induction l with
  | nil => simp
  | cons a t ih =>
    by_cases h : p a <;> simp [List.takeWhile_cons, List.dropWhile_cons, h, ih]

theorem takeWhile_of_no_newline {l : List Char} (h : '\n' ∉ l) :
    l.takeWhile (fun ch => ch != '\n') = l := by
  refine List.takeWhile_eq_self_iff.mpr fun x hx => ?_
  simp only [bne_iff_ne, ne_eq]
  exact fun he => h (he ▸ hx)

/-- A successful `URI_PATH` match splits the newline-free input exactly. -/
theorem uriGo_concat (s : List Char) (hnl : '\n' ∉ s) :
    ∀ n pr r, uriGo s n = some (pr, r) → pr ++ r = s := by
  intro n
  induction n with
  | zero => intro pr r h; simp [uriGo] at h
  | succ n ih =>
    intro pr r h
    rw [uriGo] at h
    split at h
    case h_1 c rest hsplit =>
      split at h
      case isTrue hcond =>
        simp only [Option.some.injEq, Prod.mk.injEq] at h
        obtain ⟨hpr, hr⟩ := h
        subst hpr hr
        have h2 : '\n' ∉ (c :: rest) := by
          intro hm
          exact hnl (List.mem_of_mem_drop (l := s) (n := n + 1) (by rw [hsplit]; simp [hm]))
        have h1 : s.take (n + 2) = s.take (n + 1) ++ [':'] := by
          have ha := List.take_add s (n + 1) 1
          rw [hsplit] at ha
          simpa using ha
        rw [h1, takeWhile_of_no_newline h2, List.append_assoc]
        simp only [List.singleton_append]
        rw [← hsplit, List.take_append_drop]
      case isFalse => exact ih pr r h
    case h_2 => exact ih pr r h

/-- A successful plain (no `@scope/`) `MODULE_PATH` match splits the
newline-free input exactly. -/
theorem modulePlain_concat (s : List Char) (hnl : '\n' ∉ s) (m p : List Char)
    (h : modulePlain s = some (m, p)) : m ++ p = s := by
  simp only [modulePlain] at h
  split at h
  · exact absurd h (by simp)
  · simp only [Option.some.injEq, Prod.mk.injEq] at h
    obtain ⟨hm, hp⟩ := h
    subst hm hp
    have hd : '\n' ∉ s.drop (s.takeWhile (fun c => c != '/')).length := by
      intro hmem
      exact hnl (List.mem_of_mem_drop hmem)
    rw [takeWhile_of_no_newline hd, drop_length_takeWhile]
    exact List.takeWhile_append_dropWhile _ _

/-- A successful `MODULE_PATH` match splits the newline-free input exactly. -/
theorem moduleCapture_concat (s : List Char) (hnl : '\n' ∉ s) (m p : List Char)
    (h : moduleCapture s = some (m, p)) : m ++ p = s := by
  unfold moduleCapture at h
  split at h
  case h_1 t =>
    split at h
    case h_1 rest2 hdw =>
      simp only at h
      split at h
      case isTrue => exact modulePlain_concat _ hnl _ _ h
      case isFalse =>
        split at h
        case isTrue => exact modulePlain_concat _ hnl _ _ h
        case isFalse =>
          simp only [Option.some.injEq, Prod.mk.injEq] at h
          obtain ⟨hm, hp⟩ := h
          subst hm hp
          have hnt : '\n' ∉ t := fun hx => hnl (List.mem_cons_of_mem _ hx)
          have hnr : '\n' ∉ rest2 := by
            intro hx
            exact hnt ((List.dropWhile_sublist (l := t) _).mem (by rw [hdw]; simp [hx]))
          have hnd : '\n' ∉ rest2.drop (rest2.takeWhile (fun c => c != '/')).length :=
            fun hx => hnr (List.mem_of_mem_drop hx)
          rw [takeWhile_of_no_newline hnd, drop_length_takeWhile]
          have hu : rest2.takeWhile (fun c => c != '/') ++ rest2.dropWhile (fun c => c != '/') =
              rest2 := List.takeWhile_append_dropWhile _ _
          have hr : t.takeWhile (fun c => c != '/') ++ ('/' :: rest2) = t := by
            rw [← hdw]
            exact List.takeWhile_append_dropWhile _ _
          simp only [List.cons_append, List.append_assoc, List.cons.injEq, true_and]
          rw [hu, hr]
    case h_2 => exact modulePlain_concat _ hnl _ _ h
  case h_2 => exact modulePlain_concat _ hnl _ _ h

/-- On a nonempty input that does not begin with `/`, `MODULE_PATH` always
matches. -/
theorem moduleCapture_isSome (s : List Char) (hne : s ≠ [])
    (hslash : startsWith ['/'] s = false) : moduleCapture s ≠ none := by
  obtain ⟨c, cs, rfl⟩ : ∃ c cs, s = c :: cs := by
    cases s with
    | nil => exact absurd rfl hne
    | cons c cs => exact ⟨c, cs, rfl⟩
  have hc : ('/' == c) = false := by
    simpa [startsWith] using hslash
  have hplain : modulePlain (c :: cs) ≠ none := by
    have hcb : (c != '/') = true := by
      simp only [bne_iff_ne, ne_eq]
      intro he
      rw [he] at hc
      simp at hc
    simp [modulePlain, List.takeWhile_cons, hcb]
  unfold moduleCapture
  split
  case h_1 t =>
    split
    case h_1 rest2 hdw =>
      simp only
      split
      case isTrue => exact hplain
      case isFalse =>
        split
        case isTrue => exact hplain
        case isFalse => simp
    case h_2 => exact hplain
  case h_2 => exact hplain

/-- C7: the request parser classifies the documented literal examples as
documented: `"./foo"` is Relative, `"@scope/pkg/sub"` splits into module
`"@scope/pkg"` and path `"/sub"`, `"C:\a\b"` is Windows, `"https://x/y"`
splits into protocol `"https:"` and remainer `"//x/y"` (leading slash
included), `""` is Empty and `"/etc/hosts"` is ServerRelative. -/
theorem claim7_parse_examples :
    parse "./foo".toList = .Relative "./foo".toList ∧
    parse "@scope/pkg/sub".toList = .Module "@scope/pkg".toList "/sub".toList ∧
    parse "C:\\a\\b".toList = .Windows "C:\\a\\b".toList ∧
    parse "https://x/y".toList = .Uri "https:".toList "//x/y".toList ∧
    parse "".toList = .Empty ∧
    parse "/etc/hosts".toList = .ServerRelative "/etc/hosts".toList := by
  refine ⟨?_, ?_, ?_, ?_, ?_, ?_⟩ <;> decide

/-- C9 (counterexample): `request (parse s)` is not the identity: on the
input `"a/\nb"` the module pattern's `.*` capture stops at the newline, so
parsing yields module `"a"` with path `"/"` and `request` returns `"a/"`. -/
theorem claim9_counterexample :
    parse ['a', '/', '\n', 'b'] = .Module ['a'] ['/'] ∧
    (request (parse ['a', '/', '\n', 'b']) == ['a', '/', '\n', 'b']) = false := by
  refine ⟨by decide, by decide⟩

/-- C9 (amended): for every input without a newline character, `request`
of the parsed request returns exactly the input: each variant stores the
whole string, and the Uri and Module captures concatenate back to it. -/
theorem claim9_roundtrip (s : List Char) (hnl : '\n' ∉ s) :
    request (parse s) = s := by
  unfold parse
  split
  case isTrue h => simpa [request] using (List.isEmpty_iff.mp h).symm
  case isFalse hne =>
    split
    case isTrue => simp [request]
    case isFalse =>
      split
      case isTrue => simp [request]
      case isFalse =>
        split
        case isTrue => simp [request]
        case isFalse =>
          split
          case isTrue => simp [request]
          case isFalse =>
            split
            case h_1 pr rem huri =>
              simp only [request]
              exact uriGo_concat s hnl _ pr rem huri
            case h_2 =>
              split
              case h_1 m p hmod =>
                simp only [request]
                exact moduleCapture_concat s hnl m p hmod
              case h_2 => simp [request]

/-- C9 witness. -/
theorem claim9_roundtrip_witness :
    '\n' ∉ "@scope/pkg/sub".toList ∧
      request (parse "@scope/pkg/sub".toList) = "@scope/pkg/sub".toList :=
  ⟨by decide, claim9_roundtrip "@scope/pkg/sub".toList (by decide)⟩

/-- C10: the `Unknown` fallback of the request parser is unreachable: the
empty string is Empty, strings starting with `/` are ServerRelative, and the
module pattern matches every other input, so `parse` never returns
`Unknown`. -/
theorem claim10_unknown_unreachable (s : List Char) : isUnknownReq (parse s) = false := by
  unfold parse
  split
  case isTrue => simp [isUnknownReq]
  case isFalse hne =>
    split
    case isTrue => simp [isUnknownReq]
    case isFalse hslash =>
      split
      case isTrue => simp [isUnknownReq]
      case isFalse =>
        split
        case isTrue => simp [isUnknownReq]
        case isFalse =>
          split
          case isTrue => simp [isUnknownReq]
          case isFalse =>
            split
            case h_1 => simp [isUnknownReq]
            case h_2 =>
              split
              case h_1 => simp [isUnknownReq]
              case h_2 hmod =>
                exact absurd hmod
                  (moduleCapture_isSome s (by simpa [List.isEmpty_iff] using hne)
                    (by simpa using hslash))

end Resolve

end Turbopack
